import Mathlib

/-
Verification of the pulse-synthesis routine `sdr_delta_pulse` from
`examples/deltaPulse.py`.

The numpy pipeline is embedded shallowly: complex float arrays become
`List ℂ` over the exact complex numbers, `np.fft.ifft` becomes the exact
inverse discrete Fourier transform, and each line of the Python function
becomes one definition below.  The final `astype(np.complex64)` cast is a
precision cast and is the identity in the exact model.
-/

noncomputable section

namespace DeltaPulse

/-- Model of `np.fft.ifft`: entry `n` of the inverse DFT of `X` is
`(1/N) * Σ_{k<N} X[k] * exp(2*pi*i*k*n/N)` where `N = X.length`
(numpy's default "backward" normalisation). -/
def ifft (X : List ℂ) : List ℂ :=
  (List.range X.length).map fun (n : ℕ) =>
    ((Finset.range X.length).sum fun (k : ℕ) =>
      X.getD k 0 * Complex.exp (2 * Real.pi * Complex.I * k * n / X.length)) / X.length

/-- Model of `np.fft.fftshift x`, which for a 1-d array is
`np.roll(x, x.length // 2)`: entry `i` of the result is entry
`(i - length/2) mod length` of `x`, written here with the equivalent
non-negative offset `length - length/2`. -/
def fftshift (x : List ℂ) : List ℂ :=
  (List.range x.length).map fun i =>
    x.getD ((i + (x.length - x.length / 2)) % x.length) 0

/-- Model of `np.max(np.abs(x))`.  The fold base 0 is a lower bound of every
magnitude, so on the nonempty arrays this program applies it to it agrees
with numpy's maximum. -/
def maxAbs (x : List ℂ) : ℝ :=
  (x.map Complex.abs).foldr max 0

/-- Value of the Hann taper at index `i` of an `n`-point window, the
raised-cosine formula `0.5 - 0.5*cos(2*pi*i/(n-1))` used by `np.hanning`
for `n ≥ 2`. -/
def hannW (n i : ℕ) : ℝ :=
  0.5 - 0.5 * Real.cos (2 * Real.pi * i / ((n : ℝ) - 1))

/-- Model of `np.hanning M`: empty for `M < 1`, the single tap `[1]` for
`M = 1`, and otherwise the raised-cosine taper `hannW`. -/
def hanning (M : ℕ) : List ℝ :=
  if M < 1 then []
  else if M = 1 then [1]
  else (List.range M).map (hannW M)

/-- Source line `x = x / np.max(np.abs(x)) * amplitude`. -/
def normalize (x : List ℂ) (amplitude : ℝ) : List ℂ :=
  x.map fun v => v / (maxAbs x : ℂ) * (amplitude : ℂ)

/-- Source line `x = x * w` with `w = np.hanning(N)`. -/
def windowed (x : List ℂ) (n : ℕ) : List ℂ :=
  List.zipWith (fun (v : ℂ) (wi : ℝ) => v * (wi : ℂ)) x (hanning n)

/-- The window branch of the source: multiply by the Hann taper, then
renormalise, guarded by `if max_val > 0`. -/
def applyWindow (x : List ℂ) (n : ℕ) (amplitude : ℝ) : List ℂ :=
  let xw := windowed x n
  let max_val := maxAbs xw
  if 0 < max_val then xw.map fun v => v / (max_val : ℂ) * (amplitude : ℂ) else xw

/-- The first two pipeline stages: `x = np.fft.ifft(np.ones(N))`, followed by
`if center: x = np.fft.fftshift(x)`. -/
def pulse_pre (n : ℕ) (center : Bool) : List ℂ :=
  let x := ifft (List.replicate n (1 : ℂ))
  if center then fftshift x else x

/-- The full function `sdr_delta_pulse(N, amplitude, window, center)`.
The Python function performs no explicit validation; for `N < 0` numpy's
`np.ones(N)` raises `ValueError("negative dimensions are not allowed")`, and
for `N = 0` `np.fft.ifft` raises
`ValueError("Invalid number of FFT data points (0) specified")`.  Both are
modelled as `Except.error` with numpy's message. -/
def sdr_delta_pulse (N : ℤ) (amplitude : ℝ) (window center : Bool) :
    Except String (List ℂ) :=
  if N < 0 then Except.error "negative dimensions are not allowed"
  else if N = 0 then Except.error "Invalid number of FFT data points (0) specified"
  else
    let n := N.toNat
    let x := normalize (pulse_pre n center) amplitude
    Except.ok (if window then applyWindow x n amplitude else x)

/-- The list of length `n` holding `c` at index `p` and `0` elsewhere; the
closed form that the pipeline stages produce. -/
def deltaL (n p : ℕ) (c : ℂ) : List ℂ :=
  (List.range n).map fun i => if i = p then c else 0

/- Basic list-indexing helpers. -/

theorem getD_map_range (f : ℕ → ℂ) {n i : ℕ} (h : i < n) (d : ℂ) :
    ((List.range n).map f).getD i d = f i := by
  rw [List.getD_eq_getElem _ d (by simpa using h)]
  simp

theorem getD_replicate_one {n k : ℕ} (h : k < n) :
    (List.replicate n (1 : ℂ)).getD k 0 = 1 := by
  rw [List.getD_eq_getElem _ 0 (by simpa using h)]
  simp

theorem length_deltaL (n p : ℕ) (c : ℂ) : (deltaL n p c).length = n := by
  simp [deltaL]

theorem getD_deltaL {n p i : ℕ} (hi : i < n) (c : ℂ) :
    (deltaL n p c).getD i 0 = if i = p then c else 0 :=
  getD_map_range _ hi 0

theorem deltaL_one (c : ℂ) : deltaL 1 0 c = [c] := by
  rfl

/- Facts about `maxAbs`. -/

theorem maxAbs_nil : maxAbs [] = 0 := rfl

theorem maxAbs_cons (a : ℂ) (t : List ℂ) :
    maxAbs (a :: t) = max (Complex.abs a) (maxAbs t) := rfl

theorem maxAbs_nonneg (x : List ℂ) : 0 ≤ maxAbs x := by
  induction x with
  | nil => exact le_refl 0
  | cons a t ih => rw [maxAbs_cons]; exact le_max_of_le_right ih

theorem le_maxAbs {x : List ℂ} {v : ℂ} (hv : v ∈ x) :
    Complex.abs v ≤ maxAbs x := by
  induction x with
  | nil => cases hv
  | cons a t ih =>
    rw [maxAbs_cons]
    rcases List.mem_cons.mp hv with h | h
    · subst h; exact le_max_left _ _
    · exact le_max_of_le_right (ih h)

theorem maxAbs_le {x : List ℂ} {b : ℝ} (hb : 0 ≤ b)
    (h : ∀ v ∈ x, Complex.abs v ≤ b) : maxAbs x ≤ b := by
  induction x with
  | nil => exact hb
  | cons a t ih =>
    rw [maxAbs_cons]
    exact max_le (h a (List.mem_cons_self a t)) (ih fun v hv => h v (List.mem_cons_of_mem a hv))

theorem maxAbs_singleton (v : ℂ) : maxAbs [v] = Complex.abs v := by
  rw [maxAbs_cons, maxAbs_nil]
  exact max_eq_left (Complex.abs.nonneg v)

theorem maxAbs_deltaL {n p : ℕ} (hp : p < n) (c : ℂ) :
    maxAbs (deltaL n p c) = Complex.abs c := by
  apply le_antisymm
  · refine maxAbs_le (Complex.abs.nonneg c) fun v hv => ?_
    rw [deltaL, List.mem_map] at hv
    obtain ⟨i, _, rfl⟩ := hv
    by_cases h : i = p
    · rw [if_pos h]
    · rw [if_neg h, map_zero]
      exact Complex.abs.nonneg c
  · apply le_maxAbs
    rw [deltaL, List.mem_map]
    exact ⟨p, List.mem_range.mpr hp, if_pos rfl⟩

/- The inverse DFT of a flat spectrum is the unit impulse. -/

theorem ifft_replicate_one {n : ℕ} (hn : 1 ≤ n) :
    ifft (List.replicate n 1) = deltaL n 0 1 := by
  unfold ifft deltaL
  rw [List.length_replicate]
  refine List.map_congr_left fun m hm => ?_
  rw [List.mem_range] at hm
  have hne : (n : ℂ) ≠ 0 := Nat.cast_ne_zero.mpr (by omega)
  have hsum : ∀ k ∈ Finset.range n,
      (List.replicate n (1 : ℂ)).getD k 0 *
          Complex.exp (2 * Real.pi * Complex.I * k * m / n)
        = Complex.exp (2 * Real.pi * Complex.I * k * m / n) := by
    intro k hk
    rw [Finset.mem_range] at hk
    rw [getD_replicate_one hk, one_mul]
  rw [Finset.sum_congr rfl hsum]
  by_cases hm0 : m = 0
  · subst hm0
    have hz : ∀ k ∈ Finset.range n,
        Complex.exp (2 * Real.pi * Complex.I * k * (0 : ℕ) / n) = 1 := by
      intro k _
      norm_num [Complex.exp_zero]
    rw [Finset.sum_congr rfl hz]
    rw [Finset.sum_const, Finset.card_range, nsmul_eq_mul, mul_one, div_self hne]
    simp
  · set ζ := Complex.exp (2 * Real.pi * Complex.I / n) with hζ
    have hprim : IsPrimitiveRoot ζ n := Complex.isPrimitiveRoot_exp n (by omega)
    have hterm : ∀ k ∈ Finset.range n,
        Complex.exp (2 * Real.pi * Complex.I * k * m / n) = (ζ ^ m) ^ k := by
      intro k _
      rw [← pow_mul, hζ, ← Complex.exp_nat_mul]
      congr 1
      push_cast
      ring
    rw [Finset.sum_congr rfl hterm]
    have hz1 : ζ ^ m ≠ 1 := fun h =>
      hm0 (Nat.eq_zero_of_dvd_of_lt ((hprim.pow_eq_one_iff_dvd m).mp h) hm)
    rw [geom_sum_eq hz1]
    have hzn : (ζ ^ m) ^ n = 1 := by
      rw [← pow_mul, mul_comm, pow_mul, hprim.pow_eq_one, one_pow]
    rw [hzn]
    simp [hm0]

/- Centering: `fftshift` moves the impulse from index 0 to index `n / 2`. -/

theorem shift_index_iff {n i : ℕ} (hn : 1 ≤ n) (hi : i < n) :
    (i + (n - n / 2)) % n = 0 ↔ i = n / 2 := by
  constructor
  · intro h
    rcases Nat.lt_or_ge (i + (n - n / 2)) n with hlt | hge
    · rw [Nat.mod_eq_of_lt hlt] at h
      omega
    · rw [Nat.mod_eq_sub_mod hge, Nat.mod_eq_of_lt (by omega)] at h
      omega
  · intro h
    subst h
    have h2 : n / 2 + (n - n / 2) = n := by omega
    rw [h2, Nat.mod_self]

theorem fftshift_deltaL_zero {n : ℕ} (hn : 1 ≤ n) (c : ℂ) :
    fftshift (deltaL n 0 c) = deltaL n (n / 2) c := by
  unfold fftshift
  rw [length_deltaL]
  unfold deltaL
  refine List.map_congr_left fun i hi => ?_
  rw [List.mem_range] at hi
  rw [getD_map_range _ (Nat.mod_lt _ (by omega)) 0]
  exact if_congr (shift_index_iff hn hi) rfl rfl

/- Rescaling and windowing act pointwise on the impulse. -/

theorem map_deltaL (F : ℂ → ℂ) (hF : F 0 = 0) (n p : ℕ) (c : ℂ) :
    (deltaL n p c).map F = deltaL n p (F c) := by
  unfold deltaL
  rw [List.map_map]
  refine List.map_congr_left fun i _ => ?_
  by_cases h : i = p
  · simp [h]
  · simp [h, hF]

theorem normalize_deltaL {n p : ℕ} (hp : p < n) (c : ℂ) (amp : ℝ) :
    normalize (deltaL n p c) amp
      = deltaL n p (c / ((Complex.abs c : ℝ) : ℂ) * (amp : ℂ)) := by
  unfold normalize
  rw [maxAbs_deltaL hp]
  exact map_deltaL _ (by rw [zero_div, zero_mul]) n p c

theorem zipWith_map_map (f : ℂ → ℝ → ℂ) (g : ℕ → ℂ) (h : ℕ → ℝ) (l : List ℕ) :
    List.zipWith f (l.map g) (l.map h) = l.map fun i => f (g i) (h i) := by
  induction l with
  | nil => rfl
  | cons a t ih => simp [ih]

theorem hanning_eq_map {n : ℕ} (hn : 2 ≤ n) :
    hanning n = (List.range n).map (hannW n) := by
  unfold hanning
  rw [if_neg (by omega), if_neg (by omega)]

theorem windowed_deltaL {n p : ℕ} (hn : 2 ≤ n) (c : ℂ) :
    windowed (deltaL n p c) n = deltaL n p (c * ((hannW n p : ℝ) : ℂ)) := by
  unfold windowed
  rw [hanning_eq_map hn]
  unfold deltaL
  rw [zipWith_map_map]
  refine List.map_congr_left fun i _ => ?_
  by_cases h : i = p
  · simp [h]
  · simp [h]

theorem windowed_n1 (c : ℂ) : windowed [c] 1 = [c] := by
  unfold windowed hanning
  norm_num

/- Pointwise facts about the Hann taper. -/

theorem hannW_nonneg (n i : ℕ) : 0 ≤ hannW n i := by
  unfold hannW
  have h := Real.cos_le_one (2 * Real.pi * i / ((n : ℝ) - 1))
  linarith

theorem hannW_zero (n : ℕ) : hannW n 0 = 0 := by
  unfold hannW
  norm_num

theorem hannW_two_one : hannW 2 1 = 0 := by
  unfold hannW
  norm_num [Real.cos_two_pi]

theorem hannW_center_pos {n : ℕ} (hn : 3 ≤ n) : 0 < hannW n (n / 2) := by
  unfold hannW
  rcases Nat.even_or_odd n with he | ho
  · obtain ⟨m, rfl⟩ := he
    have hm : 2 ≤ m := by omega
    have hdiv : (m + m) / 2 = m := by omega
    rw [hdiv]
    have hden : ((m : ℝ) + m) - 1 ≠ 0 := by
      have : (2 : ℝ) ≤ m := by exact_mod_cast hm
      nlinarith
    have hangle : 2 * Real.pi * (m : ℝ) / (((m + m : ℕ) : ℝ) - 1)
        = Real.pi + Real.pi / (((m : ℝ) + m) - 1) := by
      push_cast
      field_simp
      ring
    rw [hangle]
    have hcos : Real.cos (Real.pi + Real.pi / (((m : ℝ) + m) - 1))
        = -Real.cos (Real.pi / (((m : ℝ) + m) - 1)) := by
      rw [Real.cos_add]
      simp
    rw [hcos]
    have hm2 : (2 : ℝ) ≤ m := by exact_mod_cast hm
    have hpos : 0 < Real.cos (Real.pi / (((m : ℝ) + m) - 1)) := by
      apply Real.cos_pos_of_mem_Ioo
      constructor
      · have h1 : 0 < Real.pi / (((m : ℝ) + m) - 1) := by
          apply div_pos Real.pi_pos
          nlinarith
        nlinarith [Real.pi_pos]
      · rw [div_lt_div_iff₀ (by nlinarith) (by norm_num : (0 : ℝ) < 2)]
        nlinarith [Real.pi_pos]
    linarith
  · obtain ⟨m, rfl⟩ := ho
    have hm : 1 ≤ m := by omega
    have hdiv : (2 * m + 1) / 2 = m := by omega
    rw [hdiv]
    have hm1 : (1 : ℝ) ≤ m := by exact_mod_cast hm
    have hangle : 2 * Real.pi * (m : ℝ) / (((2 * m + 1 : ℕ) : ℝ) - 1) = Real.pi := by
      push_cast
      field_simp
      ring
    rw [hangle, Real.cos_pi]
    norm_num

/- Closed forms for the pipeline stages. -/

theorem pulse_pre_eq {n : ℕ} (hn : 1 ≤ n) (c : Bool) :
    pulse_pre n c = deltaL n (if c then n / 2 else 0) 1 := by
  unfold pulse_pre
  rw [ifft_replicate_one hn]
  cases c
  · simp
  · simp [fftshift_deltaL_zero hn]

theorem peak_lt {n : ℕ} (hn : 1 ≤ n) (c : Bool) :
    (if c then n / 2 else 0) < n := by
  cases c <;> simp <;> omega

theorem norm_pulse_eq {n : ℕ} (hn : 1 ≤ n) (c : Bool) (amp : ℝ) :
    normalize (pulse_pre n c) amp
      = deltaL n (if c then n / 2 else 0) ((amp : ℝ) : ℂ) := by
  rw [pulse_pre_eq hn c, normalize_deltaL (peak_lt hn c)]
  norm_num

theorem sdr_eq_nowindow {N : ℤ} (hN : 1 ≤ N) (amp : ℝ) (c : Bool) :
    sdr_delta_pulse N amp false c
      = Except.ok (deltaL N.toNat (if c then N.toNat / 2 else 0) ((amp : ℝ) : ℂ)) := by
  unfold sdr_delta_pulse
  rw [if_neg (by omega), if_neg (by omega)]
  simp only [Bool.false_eq_true, if_false]
  rw [norm_pulse_eq (by omega) c amp]

theorem sdr_eq_window {N : ℤ} (hN : 1 ≤ N) (amp : ℝ) (c : Bool) :
    sdr_delta_pulse N amp true c
      = Except.ok (applyWindow
          (deltaL N.toNat (if c then N.toNat / 2 else 0) ((amp : ℝ) : ℂ))
          N.toNat amp) := by
  unfold sdr_delta_pulse
  rw [if_neg (by omega), if_neg (by omega)]
  simp only [if_true]
  rw [norm_pulse_eq (by omega) c amp]

theorem div_abs_mul_self {amp : ℝ} (h : amp ≠ 0) : amp / |amp| * amp = |amp| := by
  rw [div_mul_eq_mul_div, ← abs_mul_abs_self amp, mul_div_assoc,
    div_self (abs_ne_zero.mpr h), mul_one]

theorem applyWindow_deltaL_n1 (amp : ℝ) :
    applyWindow (deltaL 1 0 ((amp : ℝ) : ℂ)) 1 amp = [((|amp| : ℝ) : ℂ)] := by
  rw [deltaL_one]
  unfold applyWindow
  simp only [windowed_n1, maxAbs_singleton, Complex.abs_ofReal]
  by_cases h : 0 < |amp|
  · rw [if_pos h]
    simp only [List.map_cons, List.map_nil]
    rw [← Complex.ofReal_div, ← Complex.ofReal_mul,
      div_abs_mul_self (abs_pos.mp h)]
  · have h0 : amp = 0 := abs_eq_zero.mp (le_antisymm (not_lt.mp h) (abs_nonneg amp))
    subst h0
    rw [if_neg h]
    norm_num

theorem applyWindow_deltaL_ge2 {n p : ℕ} (hn : 2 ≤ n) (hp : p < n) (amp : ℝ) :
    applyWindow (deltaL n p ((amp : ℝ) : ℂ)) n amp
      = deltaL n p
          (if amp = 0 ∨ hannW n p = 0 then 0 else ((|amp| : ℝ) : ℂ)) := by
  unfold applyWindow
  simp only [windowed_deltaL hn, ← Complex.ofReal_mul, maxAbs_deltaL hp, Complex.abs_ofReal]
  have hwnn : 0 ≤ hannW n p := hannW_nonneg n p
  by_cases hz : amp = 0 ∨ hannW n p = 0
  · have hzero : amp * hannW n p = 0 := by
      rcases hz with h | h <;> rw [h] <;> ring
    rw [hzero, if_neg (by norm_num), if_pos hz]
    norm_num
  · push_neg at hz
    obtain ⟨ha, hw0⟩ := hz
    have hwpos : 0 < hannW n p := lt_of_le_of_ne hwnn (Ne.symm hw0)
    have habs : |amp * hannW n p| = |amp| * hannW n p := by
      rw [abs_mul, abs_of_pos hwpos]
    have hpos : 0 < |amp * hannW n p| := by
      rw [habs]
      exact mul_pos (abs_pos.mpr ha) hwpos
    rw [if_pos hpos, map_deltaL _ (by rw [zero_div, zero_mul]),
      if_neg (not_or.mpr ⟨ha, hw0⟩)]
    congr 1
    rw [← Complex.ofReal_div, ← Complex.ofReal_mul]
    congr 1
    rw [habs, mul_comm |amp| (hannW n p), mul_comm amp (hannW n p),
      mul_div_mul_left _ _ (ne_of_gt hwpos)]
    exact div_abs_mul_self ha

theorem deltaL_zero (n p : ℕ) : deltaL n p 0 = List.replicate n 0 := by
  unfold deltaL
  rw [List.eq_replicate_iff]
  refine ⟨by simp, fun b hb => ?_⟩
  rw [List.mem_map] at hb
  obtain ⟨i, _, rfl⟩ := hb
  by_cases h : i = p <;> simp [h]

theorem mem_deltaL {n p : ℕ} {c v : ℂ} (hv : v ∈ deltaL n p c) : v = c ∨ v = 0 := by
  rw [deltaL, List.mem_map] at hv
  obtain ⟨i, _, rfl⟩ := hv
  by_cases h : i = p
  · left; rw [if_pos h]
  · right; rw [if_neg h]

/-- Complete case analysis of the window branch: either the length is 1 and
the single tap yields `|amplitude|`, or the length is at least 2 and the
result is the (possibly zeroed) renormalised impulse. -/
theorem sdr_window_cases {N : ℤ} (hN : 1 ≤ N) (amp : ℝ) (c : Bool) :
    (N = 1 ∧ sdr_delta_pulse N amp true c = Except.ok [((|amp| : ℝ) : ℂ)]) ∨
      (2 ≤ N ∧ sdr_delta_pulse N amp true c
        = Except.ok (deltaL N.toNat (if c then N.toNat / 2 else 0)
            (if amp = 0 ∨ hannW N.toNat (if c then N.toNat / 2 else 0) = 0 then 0
             else ((|amp| : ℝ) : ℂ)))) := by
  rcases eq_or_lt_of_le hN with h1 | h2
  · left
    refine ⟨h1.symm, ?_⟩
    subst h1
    rw [sdr_eq_window (le_refl 1) amp c]
    have hp : (if c then (1:ℤ).toNat / 2 else 0) = 0 := by cases c <;> rfl
    rw [hp]
    show Except.ok (applyWindow (deltaL 1 0 ((amp : ℝ) : ℂ)) 1 amp) = _
    rw [applyWindow_deltaL_n1 amp]
  · right
    refine ⟨by omega, ?_⟩
    rw [sdr_eq_window hN amp c]
    rw [applyWindow_deltaL_ge2 (by omega) (peak_lt (by omega) c) amp]

/-
Claim theorems.
-/

/-- C2: for every length < 1, the synthesis operation fails with numpy's
invalid-argument ValueError, for every amplitude and every window/center
combination; the result is an error, so no partial sequence is produced. -/
theorem C2_invalid_length {N : ℤ} (hN : N < 1) (amp : ℝ) (w c : Bool) :
    ∃ msg, sdr_delta_pulse N amp w c = Except.error msg := by
  unfold sdr_delta_pulse
  rcases lt_or_ge N 0 with h | h
  · exact ⟨"negative dimensions are not allowed", by rw [if_pos h]⟩
  · have h0 : N = 0 := by omega
    subst h0
    exact ⟨"Invalid number of FFT data points (0) specified",
      by rw [if_neg (lt_irrefl 0), if_pos rfl]⟩

/-- C2 witness: length 0 with one concrete flag combination. -/
theorem C2_witness :
    (0 : ℤ) < 1 ∧
      ∃ msg, sdr_delta_pulse 0 (0.8 : ℝ) true true = Except.error msg :=
  ⟨by norm_num, C2_invalid_length (by norm_num) (0.8 : ℝ) true true⟩

/-- C5: for every length ≥ 1 and every amplitude and flag combination, the
returned sequence has exactly `length` elements. -/
theorem C5_length {N : ℤ} (hN : 1 ≤ N) (amp : ℝ) (w c : Bool) :
    ∃ xs, sdr_delta_pulse N amp w c = Except.ok xs ∧ xs.length = N.toNat := by
  cases w
  · exact ⟨_, sdr_eq_nowindow hN amp c, length_deltaL _ _ _⟩
  · rcases sdr_window_cases hN amp c with ⟨h1, heq⟩ | ⟨_, heq⟩
    · refine ⟨_, heq, ?_⟩
      subst h1
      rfl
    · exact ⟨_, heq, length_deltaL _ _ _⟩

/-- C5 witness: at one concrete input. -/
theorem C5_witness :
    (1 : ℤ) ≤ 8 ∧
      ∃ xs, sdr_delta_pulse 8 (0.8 : ℝ) true true = Except.ok xs ∧
        xs.length = (8 : ℤ).toNat :=
  ⟨by norm_num, C5_length (by norm_num) (0.8 : ℝ) true true⟩

/-- C6: for every length ≥ 1 and every window/center combination, amplitude 0
yields a sequence every sample of which has magnitude 0, with no error. -/
theorem C6_zero_amplitude {N : ℤ} (hN : 1 ≤ N) (w c : Bool) :
    ∃ xs, sdr_delta_pulse N 0 w c = Except.ok xs ∧
      ∀ v ∈ xs, Complex.abs v = 0 := by
  cases w
  · refine ⟨_, sdr_eq_nowindow hN 0 c, fun v hv => ?_⟩
    rcases mem_deltaL hv with h | h <;> rw [h] <;> simp
  · rcases sdr_window_cases hN 0 c with ⟨_, heq⟩ | ⟨_, heq⟩
    · refine ⟨_, heq, fun v hv => ?_⟩
      rw [List.mem_singleton] at hv
      rw [hv]
      simp
    · refine ⟨_, heq, fun v hv => ?_⟩
      rw [if_pos (Or.inl rfl)] at hv
      rcases mem_deltaL hv with h | h <;> rw [h] <;> simp

/-- C6 witness: at one concrete input. -/
theorem C6_witness :
    (1 : ℤ) ≤ 4 ∧
      ∃ xs, sdr_delta_pulse 4 0 true true = Except.ok xs ∧
        ∀ v ∈ xs, Complex.abs v = 0 :=
  ⟨by norm_num, C6_zero_amplitude (by norm_num) true true⟩

/-- C7: at length 1 and amplitude 0.8, every window/center combination
returns the single-element sequence [0.8], whose sample has magnitude 0.8;
no error occurs (the length-1 window is the single unit tap). -/
theorem C7_length_one (w c : Bool) :
    sdr_delta_pulse 1 (0.8 : ℝ) w c = Except.ok [((0.8 : ℝ) : ℂ)] ∧
      Complex.abs ((0.8 : ℝ) : ℂ) = 0.8 := by
  constructor
  · cases w
    · rw [sdr_eq_nowindow (by norm_num) (0.8 : ℝ) c]
      have hp : (if c then (1:ℤ).toNat / 2 else 0) = 0 := by cases c <;> rfl
      rw [hp]
      show Except.ok (deltaL 1 0 ((0.8 : ℝ) : ℂ)) = _
      rw [deltaL_one]
    · rcases sdr_window_cases (by norm_num : (1:ℤ) ≤ 1) (0.8 : ℝ) c with
        ⟨_, heq⟩ | ⟨h2, _⟩
      · rw [heq, abs_of_pos (by norm_num : (0:ℝ) < 0.8)]
      · exact absurd h2 (by norm_num)
  · rw [Complex.abs_ofReal]
    norm_num

/-- C8: the divisor of the first normalization pass is strictly positive for
every length ≥ 1 and either centering choice, and the post-window
renormalization is skipped whenever the post-window maximum magnitude is
zero. -/
theorem C8_no_div_zero {N : ℤ} (hN : 1 ≤ N) (c : Bool) :
    0 < maxAbs (pulse_pre N.toNat c) ∧
      ∀ (x : List ℂ) (amp : ℝ), maxAbs (windowed x N.toNat) = 0 →
        applyWindow x N.toNat amp = windowed x N.toNat := by
  constructor
  · rw [pulse_pre_eq (by omega) c, maxAbs_deltaL (peak_lt (by omega) c)]
    simp
  · intro x amp h
    unfold applyWindow
    simp only [h]
    rw [if_neg (lt_irrefl 0)]

/-- C8 witness: at one concrete input. -/
theorem C8_witness :
    (1 : ℤ) ≤ 4 ∧
      (0 < maxAbs (pulse_pre (4 : ℤ).toNat true) ∧
        ∀ (x : List ℂ) (amp : ℝ), maxAbs (windowed x (4 : ℤ).toNat) = 0 →
          applyWindow x (4 : ℤ).toNat amp = windowed x (4 : ℤ).toNat) :=
  ⟨by norm_num, C8_no_div_zero (by norm_num) true⟩

/-- C10: with window and center both off and amplitude > 0, the single
largest-magnitude sample of the returned sequence is at index 0. -/
theorem C10_peak_at_zero {N : ℤ} {amp : ℝ} (hN : 1 ≤ N) (hamp : 0 < amp) :
    ∃ xs, sdr_delta_pulse N amp false false = Except.ok xs ∧
      ∀ j, j < N.toNat → j ≠ 0 →
        Complex.abs (xs.getD j 0) < Complex.abs (xs.getD 0 0) := by
  have heq := sdr_eq_nowindow hN amp false
  simp only [Bool.false_eq_true, if_false] at heq
  refine ⟨_, heq, fun j hj hj0 => ?_⟩
  rw [getD_deltaL hj, getD_deltaL (by omega : (0:ℕ) < N.toNat),
    if_neg hj0, if_pos rfl, map_zero, Complex.abs_ofReal]
  exact abs_pos.mpr (ne_of_gt hamp)

/-- C10 witness: at one concrete input. -/
theorem C10_witness :
    (1 : ℤ) ≤ 8 ∧ (0 : ℝ) < 0.8 ∧
      ∃ xs, sdr_delta_pulse 8 (0.8 : ℝ) false false = Except.ok xs ∧
        ∀ j, j < (8 : ℤ).toNat → j ≠ 0 →
          Complex.abs (xs.getD j 0) < Complex.abs (xs.getD 0 0) :=
  ⟨by norm_num, by norm_num, C10_peak_at_zero (by norm_num) (by norm_num)⟩

/-- C1 counterexample: at length 2, amplitude 1, window on, center off, the
Hann taper is zero at the impulse position, the guarded renormalisation is
skipped, and the returned sequence is all-zero: its maximum magnitude is 0,
not the requested amplitude 1. -/
theorem C1_counterexample :
    sdr_delta_pulse 2 1 true false = Except.ok [0, 0] ∧
      maxAbs [0, 0] ≠ 1 := by
  constructor
  · rw [sdr_eq_window (by norm_num : (1:ℤ) ≤ 2) 1 false]
    show Except.ok (applyWindow (deltaL 2 0 ((1 : ℝ) : ℂ)) 2 1) = _
    rw [applyWindow_deltaL_ge2 (le_refl 2) (by norm_num) 1,
      if_pos (Or.inr (hannW_zero 2)), deltaL_zero]
    rfl
  · rw [maxAbs_cons, maxAbs_cons, maxAbs_nil]
    simp

/-- C1 (amended): for amplitude > 0 the maximum magnitude of the returned
sequence equals amplitude whenever the window is off, or the length is 1, or
the window is combined with centering at length ≥ 3.  (As stated the claim
fails when the window is applied without centering at length ≥ 2, and at
length 2 with centering: there the Hann taper is zero at the impulse
position, the guarded renormalisation is skipped, and the peak is 0.) -/
theorem C1_max_amplitude {N : ℤ} {amp : ℝ} (window center : Bool)
    (hN : 1 ≤ N) (hamp : 0 < amp)
    (hcase : window = false ∨ N = 1 ∨ (center = true ∧ 3 ≤ N)) :
    ∃ xs, sdr_delta_pulse N amp window center = Except.ok xs ∧
      maxAbs xs = amp := by
  cases window
  · refine ⟨_, sdr_eq_nowindow hN amp center, ?_⟩
    rw [maxAbs_deltaL (peak_lt (by omega) center), Complex.abs_ofReal,
      abs_of_pos hamp]
  · rcases sdr_window_cases hN amp center with ⟨_, heq⟩ | ⟨h2, heq⟩
    · refine ⟨_, heq, ?_⟩
      rw [maxAbs_singleton, Complex.abs_ofReal, abs_abs, abs_of_pos hamp]
    · have hc : center = true ∧ 3 ≤ N := by
        rcases hcase with h | h | h
        · exact absurd h (by simp)
        · omega
        · exact h
      obtain ⟨hcen, h3⟩ := hc
      subst hcen
      simp only [if_true] at heq
      rw [if_neg (not_or.mpr ⟨ne_of_gt hamp,
        ne_of_gt (hannW_center_pos (by omega))⟩)] at heq
      refine ⟨_, heq, ?_⟩
      rw [maxAbs_deltaL (by omega : N.toNat / 2 < N.toNat),
        Complex.abs_ofReal, abs_abs, abs_of_pos hamp]

/-- C1 witness: window and center on at length 8, amplitude 1. -/
theorem C1_witness :
    (1 : ℤ) ≤ 8 ∧ (0 : ℝ) < 1 ∧
      ∃ xs, sdr_delta_pulse 8 1 true true = Except.ok xs ∧ maxAbs xs = 1 :=
  ⟨by norm_num, by norm_num,
    C1_max_amplitude true true (by norm_num) (by norm_num)
      (Or.inr (Or.inr ⟨rfl, by norm_num⟩))⟩

/-- C3 counterexample: synthesize(8, 1.0, window=false, center=false) returns
the unit impulse, whose samples are not all equal: sample 1 differs from
sample 0. -/
theorem C3_counterexample :
    sdr_delta_pulse 8 1 false false
        = Except.ok [1, 0, 0, 0, 0, 0, 0, 0] ∧
      ([1, 0, 0, 0, 0, 0, 0, 0] : List ℂ).getD 1 0
        ≠ ([1, 0, 0, 0, 0, 0, 0, 0] : List ℂ).getD 0 0 := by
  constructor
  · rw [sdr_eq_nowindow (by norm_num : (1:ℤ) ≤ 8) 1 false]
    show Except.ok (deltaL 8 0 ((1 : ℝ) : ℂ)) = _
    rw [Complex.ofReal_one]
    rfl
  · show (0 : ℂ) ≠ 1
    exact zero_ne_one

/-- C3 (amended): synthesize(8, 1.0, window=false, center=false) returns the
unit impulse: sample 0 equals 1 (real part 1, imaginary part 0, magnitude 1)
and every other sample equals 0. -/
theorem C3_impulse :
    sdr_delta_pulse 8 1 false false
        = Except.ok [1, 0, 0, 0, 0, 0, 0, 0] ∧
      (1 : ℂ).re = 1 ∧ (1 : ℂ).im = 0 ∧ Complex.abs 1 = 1 := by
  refine ⟨?_, by norm_num, by norm_num, by norm_num⟩
  rw [sdr_eq_nowindow (by norm_num : (1:ℤ) ≤ 8) 1 false]
  show Except.ok (deltaL 8 0 ((1 : ℝ) : ℂ)) = _
  rw [Complex.ofReal_one]
  rfl

/-- C4 counterexample: at length 2 with window and center both on, the
centered impulse lands on a zero of the Hann taper: the returned sequence is
all-zero, so the sample at index length/2 = 1 is not the single largest. -/
theorem C4_counterexample :
    sdr_delta_pulse 2 1 true true = Except.ok [0, 0] ∧
      ¬ Complex.abs (([0, 0] : List ℂ).getD 0 0)
          < Complex.abs (([0, 0] : List ℂ).getD 1 0) := by
  constructor
  · rw [sdr_eq_window (by norm_num : (1:ℤ) ≤ 2) 1 true]
    show Except.ok (applyWindow (deltaL 2 1 ((1 : ℝ) : ℂ)) 2 1) = _
    rw [applyWindow_deltaL_ge2 (le_refl 2) (by norm_num) 1,
      if_pos (Or.inr hannW_two_one), deltaL_zero]
    rfl
  · show ¬ Complex.abs 0 < Complex.abs 0
    exact lt_irrefl _

/-- C4 (amended): with center on, the intermediate sequence is cyclically
rotated so that for even length the new index 0 holds the old index
length/2, and the single largest-magnitude sample of the returned sequence
is at index length/2 provided amplitude ≠ 0 and the window does not zero the
centered impulse (window off, or length ≠ 2; with amplitude 0 or at length 2
with the window on the returned sequence is all-zero and has no single
largest sample). -/
theorem C4_center_peak {N : ℤ} {amp : ℝ} (window : Bool)
    (hN : 1 ≤ N) (hamp : amp ≠ 0) (hw : window = false ∨ N ≠ 2) :
    (∀ x : List ℂ, x.length = N.toNat → 2 ∣ N.toNat →
        (fftshift x).getD 0 0 = x.getD (N.toNat / 2) 0) ∧
      ∃ xs, sdr_delta_pulse N amp window true = Except.ok xs ∧
        ∀ j, j < N.toNat → j ≠ N.toNat / 2 →
          Complex.abs (xs.getD j 0)
            < Complex.abs (xs.getD (N.toNat / 2) 0) := by
  constructor
  · intro x hlen hdvd
    unfold fftshift
    rw [hlen]
    rw [getD_map_range _ (by omega : (0:ℕ) < N.toNat) 0]
    have hidx : (0 + (N.toNat - N.toNat / 2)) % N.toNat = N.toNat / 2 := by
      have h1 : N.toNat - N.toNat / 2 = N.toNat / 2 := by omega
      rw [zero_add, h1, Nat.mod_eq_of_lt (by omega)]
    rw [hidx]
  · cases window
    · have heq := sdr_eq_nowindow hN amp true
      simp only [if_true] at heq
      refine ⟨_, heq, fun j hj hjp => ?_⟩
      rw [getD_deltaL hj, getD_deltaL (by omega : N.toNat / 2 < N.toNat),
        if_neg hjp, if_pos rfl, map_zero, Complex.abs_ofReal]
      exact abs_pos.mpr hamp
    · rcases sdr_window_cases hN amp true with ⟨h1, heq⟩ | ⟨h2, heq⟩
      · refine ⟨_, heq, fun j hj hjp => ?_⟩
        subst h1
        exact absurd (by omega : j = (1:ℤ).toNat / 2) hjp
      · have h3 : 3 ≤ N := by
          rcases hw with h | h
          · exact absurd h (by simp)
          · omega
        simp only [if_true] at heq
        rw [if_neg (not_or.mpr ⟨hamp,
          ne_of_gt (hannW_center_pos (by omega))⟩)] at heq
        refine ⟨_, heq, fun j hj hjp => ?_⟩
        rw [getD_deltaL hj, getD_deltaL (by omega : N.toNat / 2 < N.toNat),
          if_neg hjp, if_pos rfl, map_zero, Complex.abs_ofReal, abs_abs]
        exact abs_pos.mpr hamp

/-- C4 witness: window on, length 8, amplitude 0.8. -/
theorem C4_witness :
    (1 : ℤ) ≤ 8 ∧ (0.8 : ℝ) ≠ 0 ∧
      ((∀ x : List ℂ, x.length = (8 : ℤ).toNat → 2 ∣ (8 : ℤ).toNat →
          (fftshift x).getD 0 0 = x.getD ((8 : ℤ).toNat / 2) 0) ∧
        ∃ xs, sdr_delta_pulse 8 (0.8 : ℝ) true true = Except.ok xs ∧
          ∀ j, j < (8 : ℤ).toNat → j ≠ (8 : ℤ).toNat / 2 →
            Complex.abs (xs.getD j 0)
              < Complex.abs (xs.getD ((8 : ℤ).toNat / 2) 0)) :=
  ⟨by norm_num, by norm_num,
    C4_center_peak true (by norm_num) (by norm_num) (Or.inr (by norm_num))⟩

/-- C9 counterexample: with the window on, the second normalisation pass
multiplies by the signed amplitude a second time, cancelling the sign flip:
at length 1, amplitude -0.8 returns [0.8], the same sequence as amplitude
0.8, and not its elementwise negation. -/
theorem C9_counterexample :
    sdr_delta_pulse 1 (0.8 : ℝ) true false = Except.ok [((0.8 : ℝ) : ℂ)] ∧
      sdr_delta_pulse 1 (-0.8 : ℝ) true false = Except.ok [((0.8 : ℝ) : ℂ)] ∧
      ((0.8 : ℝ) : ℂ) ≠ -((0.8 : ℝ) : ℂ) := by
  refine ⟨?_, ?_, ?_⟩
  · rw [sdr_eq_window (by norm_num : (1:ℤ) ≤ 1) (0.8 : ℝ) false]
    show Except.ok (applyWindow (deltaL 1 0 ((0.8 : ℝ) : ℂ)) 1 (0.8 : ℝ)) = _
    rw [applyWindow_deltaL_n1, abs_of_pos (by norm_num : (0:ℝ) < 0.8)]
  · rw [sdr_eq_window (by norm_num : (1:ℤ) ≤ 1) (-0.8 : ℝ) false]
    show Except.ok (applyWindow (deltaL 1 0 ((-0.8 : ℝ) : ℂ)) 1 (-0.8 : ℝ)) = _
    rw [applyWindow_deltaL_n1, abs_neg, abs_of_pos (by norm_num : (0:ℝ) < 0.8)]
  · intro h
    rw [← Complex.ofReal_neg] at h
    have h8 := Complex.ofReal_inj.mp h
    norm_num at h8

/-- C9 (amended): negative amplitude -a (a > 0) is honored as an elementwise
sign flip when the window is off; with the window on, the post-window
renormalisation multiplies by the amplitude a second time, so amplitude -a
returns exactly the amplitude-a sequence instead of its negation. -/
theorem C9_sign_flip {N : ℤ} {amp : ℝ} (c : Bool) (hN : 1 ≤ N)
    (_hamp : 0 < amp) :
    (∃ xs, sdr_delta_pulse N amp false c = Except.ok xs ∧
        sdr_delta_pulse N (-amp) false c
          = Except.ok (xs.map fun v => -v)) ∧
      sdr_delta_pulse N (-amp) true c = sdr_delta_pulse N amp true c := by
  constructor
  · refine ⟨_, sdr_eq_nowindow hN amp c, ?_⟩
    rw [sdr_eq_nowindow hN (-amp) c,
      map_deltaL _ neg_zero N.toNat (if c then N.toNat / 2 else 0),
      Complex.ofReal_neg]
  · rcases sdr_window_cases hN amp c with ⟨h1, heq⟩ | ⟨h2, heq⟩
    · rcases sdr_window_cases hN (-amp) c with ⟨_, heq2⟩ | ⟨h2b, _⟩
      · rw [heq, heq2, abs_neg]
      · omega
    · rcases sdr_window_cases hN (-amp) c with ⟨h1b, _⟩ | ⟨_, heq2⟩
      · omega
      · rw [heq, heq2, abs_neg]
        simp only [neg_eq_zero]

/-- C9 witness: length 4, amplitude 1, centered. -/
theorem C9_witness :
    (1 : ℤ) ≤ 4 ∧ (0 : ℝ) < 1 ∧
      ((∃ xs, sdr_delta_pulse 4 1 false true = Except.ok xs ∧
          sdr_delta_pulse 4 (-1) false true
            = Except.ok (xs.map fun v => -v)) ∧
        sdr_delta_pulse 4 (-1) true true = sdr_delta_pulse 4 1 true true) :=
  ⟨by norm_num, by norm_num, C9_sign_flip true (by norm_num) (by norm_num)⟩
